import Mathlib

/-!
Verification of the contact/notes assistant core (models.py, logic.py).

Python strings are modelled as `List Char`; `str.lower`, `str.strip`,
`str.split(maxsplit=1)`, substring containment (`in`) and `re.findall`
word tokenization are given explicit executable definitions.  Dates are
modelled as a plain year/month/day structure with the proleptic Gregorian
ordinal used by Python's `datetime.date` subtraction; year range bounds
(1..9999) of `datetime.date` are not modelled.  Interactive
`input()` replies inside `get_record_key` are modelled as an explicit
parameter carrying the operator's parsed numeric selection (`none` for a
reply that is not a digit string).
-/

abbrev Str := List Char

/-- Whitespace test used by `str.strip` / `str.split` (ASCII subset). -/
def isSpace (c : Char) : Bool :=
  c = ' ' || c = '\t' || c = '\n' || c = '\r' || c = '\x0b' || c = '\x0c'

/-- `str.lower` (ASCII model). -/
def pyLower (s : Str) : Str := s.map Char.toLower

/-- `str.strip`: remove leading and trailing whitespace.  Stripping the
right side first and the left side second gives the same result as Python
and keeps the useful property that a non-empty result starts with a
non-whitespace character. -/
def pyStrip (s : Str) : Str :=
  List.dropWhile isSpace ((List.dropWhile isSpace s.reverse).reverse)

/-- `str.split(maxsplit=1)`: skip leading whitespace, take the first
whitespace-free word, then the remainder with its leading whitespace
removed; an empty or all-whitespace string yields `[]`, a string with no
second word yields a one-element list. -/
def splitMax1 (s : Str) : List Str :=
  let s1 := List.dropWhile isSpace s
  match s1 with
  | [] => []
  | c :: t =>
    let w := c :: List.takeWhile (fun a => !isSpace a) t
    let rest := List.dropWhile isSpace (List.dropWhile (fun a => !isSpace a) t)
    if rest = [] then [w] else [w, rest]

/-- `needle` is a prefix of `hay`. -/
def isPrefixB : Str → Str → Bool
  | [], _ => true
  | _ :: _, [] => false
  | a :: as, b :: bs => a == b && isPrefixB as bs

/-- Python substring containment `needle in hay`. -/
def isSubstr : Str → Str → Bool
  | n, [] => n.isEmpty
  | n, h@(_ :: t) => isPrefixB n h || isSubstr n t

/-- models.py `make_key`: lowercase, trimmed "name surname". -/
def make_key (name : Str) (surname : Str := []) : Str :=
  pyLower (pyStrip (name ++ ' ' :: surname))

/-- models.py `make_key_from_input`: strip, split into at most two parts,
and rebuild the canonical key.  `none` models the `TypeError` Python
raises when the input is empty or whitespace-only (`make_key(*[])`). -/
def make_key_from_input (fullname : Str) : Option Str :=
  match splitMax1 (pyStrip fullname) with
  | [] => none
  | [n] => some (make_key n)
  | n :: s :: _ => some (make_key n s)

/-- The per-key match test of `get_record_key`: every query part,
lowercased, occurs as a substring of the stored key. -/
def matchesParts (parts : List Str) (k : Str) : Bool :=
  parts.all (fun p => isSubstr (pyLower p) k)

/-- The candidate list `matches` built (and, in the ambiguous case,
printed) by `get_record_key`. -/
def candidatesFor (name : Str) (keys : List Str) : List Str :=
  keys.filter (matchesParts (splitMax1 (pyStrip name)))

/-- models.py `get_record_key`.  `sel` carries the operator's reply to the
"Select number" prompt, already parsed: `some i` when the stripped reply
is a digit string of value `i`, `none` otherwise; it is consulted only
when two or more keys match. -/
def get_record_key (name : Str) (keys : List Str) (sel : Option Nat) : Option Str :=
  let parts := splitMax1 (pyStrip name)
  if parts = [] then none
  else
    let ms := keys.filter (matchesParts parts)
    if ms.length = 1 then ms.head?
    else if 1 < ms.length then
      match sel with
      | some i => if 1 ≤ i ∧ i ≤ ms.length then ms.get? (i - 1) else none
      | none => none
    else none

/-- Helper for the claim-side whitespace split: accumulate the current
word (reversed) while scanning. -/
def specSplitAux : Str → Str → List Str
  | [], acc => if acc = [] then [] else [acc.reverse]
  | c :: t, acc =>
    if isSpace c then
      if acc = [] then specSplitAux t [] else acc.reverse :: specSplitAux t []
    else specSplitAux t (c :: acc)

/-- Claim-side definition (from the spec's words, for comparison with
`get_record_key`): split the query into all of its whitespace-separated
parts, not just the first word and the remainder. -/
def specSplitWhitespace (s : Str) : List Str := specSplitAux s []

/-! ## Dates (datetime.date, proleptic Gregorian) -/

structure Date where
  year : Nat
  month : Nat
  day : Nat
deriving DecidableEq

/-- Gregorian leap-year rule. -/
def isLeap (y : Nat) : Bool :=
  y % 4 = 0 && (y % 100 ≠ 0 || y % 400 = 0)

def daysInMonth (y m : Nat) : Nat :=
  if m = 2 then (if isLeap y then 29 else 28)
  else if m = 4 ∨ m = 6 ∨ m = 9 ∨ m = 11 then 30
  else 31

/-- `datetime.date(y, m, d)` succeeds exactly on these arguments
(the 1..9999 year range is not modelled). -/
def Date.valid (y m d : Nat) : Bool :=
  1 ≤ m && m ≤ 12 && 1 ≤ d && d ≤ daysInMonth y m

def daysBeforeMonth (y m : Nat) : Nat :=
  (List.range (m - 1)).foldl (fun a i => a + daysInMonth y (i + 1)) 0

/-- `datetime.date.toordinal`: day number in the proleptic Gregorian
calendar, with day 1 = January 1 of year 1. -/
def Date.toOrdinal (dt : Date) : Nat :=
  365 * (dt.year - 1) + (dt.year - 1) / 4 - (dt.year - 1) / 100
    + (dt.year - 1) / 400 + daysBeforeMonth dt.year dt.month + dt.day

/-- `(a - b).days` for two dates. -/
def Date.sub (a b : Date) : Int :=
  (a.toOrdinal : Int) - (b.toOrdinal : Int)

/-- `date.__lt__`: lexicographic on (year, month, day). -/
def Date.lt (a b : Date) : Bool :=
  a.year < b.year ||
    (a.year = b.year && (a.month < b.month ||
      (a.month = b.month && a.day < b.day)))

/-! ## Field validators and Record (models.py) -/

/-- `Name.__init__`: strip, reject empty. -/
def nameValidate (v : Str) : Option Str :=
  if pyStrip v = [] then none else some (pyStrip v)

/-- `Phone.__init__`: exactly 10 decimal digits. -/
def phoneValidate (v : Str) : Option Str :=
  if (v ≠ [] ∧ v.all Char.isDigit) ∧ v.length = 10 then some v else none

/-- `Email.__init__`: strip; an empty value passes, a non-empty value must
match the regular expression `[^@]+@[^@]+\.[^@]+` in full. -/
def emailValidate (v : Str) : Option Str :=
  let s := pyStrip v
  if s = [] then some [] else
    let a := List.takeWhile (fun c => c ≠ '@') s
    let b := List.drop (a.length + 1) s
    if a ≠ [] ∧ b ≠ [] ∧ b.all (fun c => c ≠ '@') ∧ '.' ∈ b.tail.dropLast
    then some s else none

/-- Decimal value of a digit string (`int(s)`). -/
def strToNat (s : Str) : Nat :=
  s.foldl (fun a c => a * 10 + (c.toNat - 48)) 0

/-- The `%d` field of CPython strptime: one or two digits, or a space
followed by a nonzero digit (the space-padded day form). -/
def parseDayField (ds : Str) : Option Nat :=
  match ds with
  | [' ', c] => if c.isDigit ∧ c ≠ '0' then some (c.toNat - 48) else none
  | _ =>
    if ds ≠ [] ∧ ds.all Char.isDigit ∧ ds.length ≤ 2 then some (strToNat ds)
    else none

/-- `Birthday.__init__`: `datetime.strptime(value, "%d.%m.%Y")` followed by
the future-date check.  As in CPython strptime, the day is 1-2 digits or
space-padded, the month 1-2 digits, the year exactly 4 digits; the three
parts are joined by dots and must form a valid calendar date not after
`today`.  (Value-range constraints that strptime's regular expression
enforces, such as a nonzero day, are subsumed by `Date.valid`.) -/
def birthdayValidate (today : Date) (raw : Str) : Option Date :=
  match raw.splitOn '.' with
  | [ds, ms, ys] =>
    match parseDayField ds with
    | none => none
    | some d =>
      if (ms ≠ [] ∧ ms.all Char.isDigit ∧ ms.length ≤ 2) ∧
         (ys.all Char.isDigit ∧ ys.length = 4) then
        let m := strToNat ms
        let y := strToNat ys
        if Date.valid y m d ∧ 1 ≤ y then
          if Date.lt today ⟨y, m, d⟩ then none else some ⟨y, m, d⟩
        else none
      else none
  | _ => none

structure Record where
  name : Str
  surname : Str
  address : Str
  email : Str
  phones : List Str
  birthday : Option Date
  contact_notes : List Str
deriving DecidableEq

/-- `Record.__init__`: validates name and email; surname and address are
stored as given; phone list, birthday and notes start empty.  `none`
models the `ValueError` raised by a failing field validator. -/
def Record.make (name surname address email : Str) : Option Record :=
  match nameValidate name, emailValidate email with
  | some n, some e => some ⟨n, surname, address, e, [], none, []⟩
  | _, _ => none

/-- `Record.add_phone`. -/
def Record.add_phone (r : Record) (phone : Str) : Option Record :=
  (phoneValidate phone).map fun p => { r with phones := r.phones ++ [p] }

/-- `Record.remove_phone`: keep every phone whose value differs from the
argument.  Never fails. -/
def Record.remove_phone (r : Record) (phone : Str) : Record :=
  { r with phones := r.phones.filter (fun p => p ≠ phone) }

/-- `Record.edit_phone`: replace the phone at `idx`; `none` models both a
validation failure of the new phone and an out-of-range index. -/
def Record.edit_phone (r : Record) (idx : Nat) (new : Str) : Option Record :=
  if idx < r.phones.length then
    (phoneValidate new).map fun p => { r with phones := r.phones.set idx p }
  else none

/-- `Record.add_birthday`: one-shot; the already-set check runs before the
new value is even parsed.  `none` models the raised `ValueError`. -/
def Record.add_birthday (today : Date) (r : Record) (raw : Str) : Option Record :=
  if r.birthday.isSome then none
  else (birthdayValidate today raw).map fun b => { r with birthday := some b }

/-- `Record.add_contact_note`. -/
def Record.add_contact_note (r : Record) (note : Str) : Option Record :=
  if pyStrip note = [] then none
  else some { r with contact_notes := r.contact_notes ++ [pyStrip note] }

/-- `Record.update_email`. -/
def Record.update_email (r : Record) (email : Str) : Option Record :=
  (emailValidate email).map fun e => { r with email := e }

/-- `Record.update_address`. -/
def Record.update_address (r : Record) (addr : Str) : Record :=
  { r with address := addr }

/-- Tail of the handlers.py add/update branch after the phone step:
`if surname: rec.surname = Surname(surname)` (never raises), then
`if email: rec.email = Email(email)` (a raise keeps the assignments
already made and skips the rest), then
`if address: rec.address = Address(address)`. -/
def updateContactRest (surname email address : Str) (r : Record) : Record :=
  let r1 := if surname ≠ [] then { r with surname := surname } else r
  if email ≠ [] then
    match emailValidate email with
    | none => r1
    | some e =>
      let r2 := { r1 with email := e }
      if address ≠ [] then { r2 with address := address } else r2
  else
    if address ≠ [] then { r1 with address := address } else r1

/-- handlers.py `handle_contact` "add", update branch (the derived key is
already present): mutate the stored record in place, field by field, in
source order, starting with `if phone: rec.add_phone(phone)`; a raised
validation error aborts the remaining assignments but keeps the ones
already committed.  The record's name is never touched and the store key
is not rewritten. -/
def updateContact (phone surname email address : Str) (r : Record) : Record :=
  if phone ≠ [] then
    match phoneValidate phone with
    | none => r
    | some p => updateContactRest surname email address { r with phones := r.phones ++ [p] }
  else updateContactRest surname email address r

/-! ## AddressBook (models.py) -/

/-- The store's backing dict: insertion-ordered key/record pairs. -/
abbrev AddressBook := List (Str × Record)

/-- `dict.__setitem__`: replace the value at an existing key in place,
otherwise append the pair at the end. -/
def dictSet (book : AddressBook) (k : Str) (v : Record) : AddressBook :=
  match book with
  | [] => [(k, v)]
  | (k1, v1) :: t => if k1 = k then (k, v) :: t else (k1, v1) :: dictSet t k v

/-- `dict.__delitem__` on a key known to be present. -/
def dictDel (book : AddressBook) (k : Str) : AddressBook :=
  match book with
  | [] => []
  | (k1, v1) :: t => if k1 = k then t else (k1, v1) :: dictDel t k

/-- `AddressBook.add_record`: upsert at the key derived from the record's
current name and surname. -/
def AddressBook.add_record (book : AddressBook) (rec : Record) : AddressBook :=
  dictSet book (make_key rec.name rec.surname) rec

inductive DelError where
  | typeError
  | keyError
deriving DecidableEq

/-- `AddressBook.delete`: `del self.data[make_key_from_input(name)]` —
the query is canonicalized directly into a key, with no substring
resolution.  `typeError` models the crash on an empty query,
`keyError` the miss on an absent key. -/
def AddressBook.delete (book : AddressBook) (name : Str) : Except DelError AddressBook :=
  match make_key_from_input name with
  | none => .error .typeError
  | some k =>
    if k ∈ book.map Prod.fst then .ok (dictDel book k) else .error .keyError

/-- Per-record body of `AddressBook.upcoming`: this-year candidate, with
`date(year, 2, 28)` substituted when `date(year, month, day)` raises. -/
def thisYearCand (today : Date) (m d : Nat) : Date :=
  if Date.valid today.year m d then ⟨today.year, m, d⟩ else ⟨today.year, 2, 28⟩

/-- Next-year candidate of `AddressBook.upcoming`, same substitution. -/
def nextYearCand (today : Date) (m d : Nat) : Date :=
  if Date.valid (today.year + 1) m d then ⟨today.year + 1, m, d⟩
  else ⟨today.year + 1, 2, 28⟩

/-- The resolved occurrence date: this year's candidate, advanced to next
year when it lies strictly before today. -/
def resolveOccurrence (today : Date) (m d : Nat) : Date :=
  let c := thisYearCand today m d
  if Date.lt c today then nextYearCand today m d else c

/-- One loop iteration of `AddressBook.upcoming`: the produced result
entry `(key, (next_bd, age_turning))`, or `none` when the record has no
birthday or its occurrence falls outside the window. -/
def projectRecord (today : Date) (daysAhead : Nat) (p : Str × Record) :
    Option (Str × Date × Int) :=
  match p.2.birthday with
  | none => none
  | some b =>
    let nb := resolveOccurrence today b.month b.day
    let delta := Date.sub nb today
    if 0 ≤ delta ∧ delta ≤ (daysAhead : Int) then
      some (p.1, nb, (nb.year : Int) - (b.year : Int))
    else none

/-- `AddressBook.upcoming`. -/
def AddressBook.upcoming (book : AddressBook) (today : Date) (daysAhead : Nat) :
    List (Str × Date × Int) :=
  book.filterMap (projectRecord today daysAhead)

/-! ## Operation sequences over the store

Everything the program ever does to an `AddressBook`: insertion through
`add_record`, deletion through `delete`, the handlers.py `add` command
(`addContact`, whose update branch rewrites surname, phones, email and
address of an already-stored record in place without re-keying), and the
in-place record mutations reached through `find`/`get_record_key`.  A
failing operation raises in Python and leaves the store as it was —
except the `add` update branch, which keeps the field assignments made
before the raise.  `addContact`'s five inputs reach the handler either
through `prompt_validated` (which strips them) or as whitespace-free
tokens of the command line; the op strips them on entry, mirroring
that. -/

inductive Op where
  | add (name surname address email : Str)
  | addContact (name surname phone email address : Str)
  | del (q : Str)
  | addPhone (q : Str) (sel : Option Nat) (phone : Str)
  | removePhone (q : Str) (sel : Option Nat) (phone : Str)
  | editPhone (q : Str) (sel : Option Nat) (idx : Nat) (new : Str)
  | addBirthday (q : Str) (sel : Option Nat) (raw : Str)
  | addContactNote (q : Str) (sel : Option Nat) (note : Str)
  | updateEmail (q : Str) (sel : Option Nat) (email : Str)
  | updateAddress (q : Str) (sel : Option Nat) (addr : Str)

/-- Mutate the record stored under `k` (the object `find` returned),
leaving the key untouched; a `none` result of `f` is a raised error, and
the store is unchanged. -/
def mutateAt (book : AddressBook) (k : Str) (f : Record → Option Record) : AddressBook :=
  book.map fun p =>
    if p.1 = k then
      match f p.2 with
      | some r2 => (p.1, r2)
      | none => p
    else p

/-- Resolve `q` as `find` does and apply the in-place mutation `f`. -/
def applyMutation (book : AddressBook) (q : Str) (sel : Option Nat)
    (f : Record → Option Record) : AddressBook :=
  match get_record_key q (book.map Prod.fst) sel with
  | none => book
  | some k => mutateAt book k f

/-- Mutate the record stored under `k` with a total in-place update,
leaving the key untouched. -/
def updateAt (book : AddressBook) (k : Str) (f : Record → Record) : AddressBook :=
  book.map fun p => if p.1 = k then (p.1, f p.2) else p

def applyOp (today : Date) (book : AddressBook) : Op → AddressBook
  | .add name surname address email =>
    match Record.make name surname address email with
    | none => book
    | some r => book.add_record r
  | .addContact name surname phone email address =>
    let name := pyStrip name
    let surname := pyStrip surname
    let phone := pyStrip phone
    let email := pyStrip email
    let address := pyStrip address
    let key := make_key name surname
    if key ∈ book.map Prod.fst then
      updateAt book key (updateContact phone surname email address)
    else
      match Record.make name surname address email with
      | none => book
      | some r =>
        if phone ≠ [] then
          match phoneValidate phone with
          | none => book
          | some p => dictSet book key { r with phones := r.phones ++ [p] }
        else dictSet book key r
  | .del q =>
    match book.delete q with
    | .ok b2 => b2
    | .error _ => book
  | .addPhone q sel phone => applyMutation book q sel (fun r => r.add_phone phone)
  | .removePhone q sel phone =>
    applyMutation book q sel (fun r => some (r.remove_phone phone))
  | .editPhone q sel idx new => applyMutation book q sel (fun r => r.edit_phone idx new)
  | .addBirthday q sel raw =>
    applyMutation book q sel (fun r => r.add_birthday today raw)
  | .addContactNote q sel note =>
    applyMutation book q sel (fun r => r.add_contact_note note)
  | .updateEmail q sel email => applyMutation book q sel (fun r => r.update_email email)
  | .updateAddress q sel addr =>
    applyMutation book q sel (fun r => some (r.update_address addr))

def applyOps (today : Date) (ops : List Op) (book : AddressBook) : AddressBook :=
  ops.foldl (applyOp today) book

/-! ## Instrumented store semantics

`HBook` runs the same operations as `applyOp` but carries, next to each
current record, a ghost snapshot: the record value as of the last write
that inserted its key (the last `data[key] = rec`).  Insert-writes set
the snapshot to the record being stored; in-place mutations (including
the handlers.py add/update branch) change only the current record;
deletion drops the entry.  Erasing the snapshots recovers the real
store, so the instrumented run states exactly what "the key as of the
last write that inserted it" means. -/

abbrev HBook := List (Str × Record × Record)

def erase (hbook : HBook) : AddressBook := hbook.map fun e => (e.1, e.2.1)

def hDictSet (hbook : HBook) (k : Str) (v : Record) : HBook :=
  match hbook with
  | [] => [(k, v, v)]
  | (k1, e1) :: t => if k1 = k then (k, v, v) :: t else (k1, e1) :: hDictSet t k v

def hDictDel (hbook : HBook) (k : Str) : HBook :=
  match hbook with
  | [] => []
  | (k1, e1) :: t => if k1 = k then t else (k1, e1) :: hDictDel t k

def hMutateAt (hbook : HBook) (k : Str) (f : Record → Option Record) : HBook :=
  hbook.map fun e =>
    if e.1 = k then
      match f e.2.1 with
      | some r2 => (e.1, r2, e.2.2)
      | none => e
    else e

def hUpdateAt (hbook : HBook) (k : Str) (f : Record → Record) : HBook :=
  hbook.map fun e => if e.1 = k then (e.1, f e.2.1, e.2.2) else e

def hApplyMutation (hbook : HBook) (q : Str) (sel : Option Nat)
    (f : Record → Option Record) : HBook :=
  match get_record_key q ((erase hbook).map Prod.fst) sel with
  | none => hbook
  | some k => hMutateAt hbook k f

def hApplyOp (today : Date) (hbook : HBook) : Op → HBook
  | .add name surname address email =>
    match Record.make name surname address email with
    | none => hbook
    | some r => hDictSet hbook (make_key r.name r.surname) r
  | .addContact name surname phone email address =>
    let name := pyStrip name
    let surname := pyStrip surname
    let phone := pyStrip phone
    let email := pyStrip email
    let address := pyStrip address
    let key := make_key name surname
    if key ∈ (erase hbook).map Prod.fst then
      hUpdateAt hbook key (updateContact phone surname email address)
    else
      match Record.make name surname address email with
      | none => hbook
      | some r =>
        if phone ≠ [] then
          match phoneValidate phone with
          | none => hbook
          | some p => hDictSet hbook key { r with phones := r.phones ++ [p] }
        else hDictSet hbook key r
  | .del q =>
    match make_key_from_input q with
    | none => hbook
    | some k =>
      if k ∈ (erase hbook).map Prod.fst then hDictDel hbook k else hbook
  | .addPhone q sel phone => hApplyMutation hbook q sel (fun r => r.add_phone phone)
  | .removePhone q sel phone =>
    hApplyMutation hbook q sel (fun r => some (r.remove_phone phone))
  | .editPhone q sel idx new =>
    hApplyMutation hbook q sel (fun r => r.edit_phone idx new)
  | .addBirthday q sel raw =>
    hApplyMutation hbook q sel (fun r => r.add_birthday today raw)
  | .addContactNote q sel note =>
    hApplyMutation hbook q sel (fun r => r.add_contact_note note)
  | .updateEmail q sel email => hApplyMutation hbook q sel (fun r => r.update_email email)
  | .updateAddress q sel addr =>
    hApplyMutation hbook q sel (fun r => some (r.update_address addr))

def hApplyOps (today : Date) (ops : List Op) (hbook : HBook) : HBook :=
  ops.foldl (hApplyOp today) hbook

/-! ## Notes (models.py, logic.py) -/

structure GeneralNote where
  text : Str
  tags : List Str
  created_at : Date
deriving DecidableEq

/-- `GeneralNote.__init__` (the text is stripped; construction stamps the
current date). -/
def GeneralNote.make (today : Date) (text : Str) (tags : List Str) : GeneralNote :=
  ⟨pyStrip text, tags, today⟩

/-- `re.findall(r"\w+", s)`: maximal runs of word characters
(ASCII model: alphanumeric or underscore). -/
def isWordChar (c : Char) : Bool := c.isAlphanum || c = '_'

def tokenizeAux : Str → Str → List Str
  | [], acc => if acc = [] then [] else [acc.reverse]
  | c :: t, acc =>
    if isWordChar c then tokenizeAux t (c :: acc)
    else if acc = [] then tokenizeAux t [] else acc.reverse :: tokenizeAux t []

def tokenize (s : Str) : List Str := tokenizeAux s []

/-- logic.py `simple_match`: the spec's `keyword_match`.  The set
comprehension over the query's words is modelled by `dedup`. -/
def simple_match (query : Str) (note : GeneralNote) : Bool :=
  let q_words := ((tokenize query).map pyLower).dedup
  let text := pyLower note.text
  let tags := pyLower (List.intercalate [' '] note.tags)
  q_words.all (fun w => isSubstr w text || isSubstr w tags)

/-- `GeneralNoteBook.search_by_tag`: exact, case-sensitive membership. -/
def search_by_tag (notes : List GeneralNote) (tag : Str) : List GeneralNote :=
  notes.filter (fun n => tag ∈ n.tags)

/-! ## group_notes_by_tag (models.py) -/

/-- Python string comparison: lexicographic on code points. -/
def strLeB : Str → Str → Bool
  | [], _ => true
  | _ :: _, [] => false
  | a :: as, b :: bs =>
    if a < b then true
    else if a = b then strLeB as bs
    else false

/-- Order on group entries used to model `dict(sorted(groups.items()))`;
group keys are pairwise distinct, so comparing keys alone reproduces
Python's tuple comparison. -/
def groupLe (p q : Str × List GeneralNote) : Prop := strLeB p.1 q.1 = true

instance : DecidableRel groupLe := fun p q => by
  unfold groupLe; infer_instance

theorem strLeB_total (s t : Str) : strLeB s t = true ∨ strLeB t s = true := by
  induction s generalizing t with
  | nil => left; rfl
  | cons a as ih =>
    cases t with
    | nil => right; rfl
    | cons b bs =>
      rcases lt_trichotomy a b with h | h | h
      · left; simp [strLeB, h]
      · subst h
        rcases ih bs with h2 | h2
        · left; simp [strLeB, h2]
        · right; simp [strLeB, h2]
      · right; simp [strLeB, h, not_lt_of_gt h]

theorem strLeB_trans {s t u : Str} (h1 : strLeB s t = true)
    (h2 : strLeB t u = true) : strLeB s u = true := by
  induction s generalizing t u with
  | nil => rfl
  | cons a as ih =>
    cases t with
    | nil => simp [strLeB] at h1
    | cons b bs =>
      cases u with
      | nil => simp [strLeB] at h2
      | cons c cs =>
        simp only [strLeB] at h1 h2 ⊢
        rcases lt_trichotomy a b with hab | hab | hab
        · rcases lt_trichotomy b c with hbc | hbc | hbc
          · simp [lt_trans hab hbc]
          · subst hbc; simp [hab]
          · simp [asymm hbc, ne_of_gt hbc] at h2
        · subst hab
          rcases lt_trichotomy a c with hac | hac | hac
          · simp [hac]
          · subst hac
            simp only [lt_irrefl, if_false, if_pos rfl] at h1 h2 ⊢
            exact ih h1 h2
          · simp [asymm hac, ne_of_gt hac] at h2
        · simp [asymm hab, ne_of_gt hab] at h1

instance : IsTotal (Str × List GeneralNote) groupLe :=
  ⟨fun p q => strLeB_total p.1 q.1⟩

instance : IsTrans (Str × List GeneralNote) groupLe :=
  ⟨fun _ _ _ h1 h2 => strLeB_trans h1 h2⟩

/-- `defaultdict(list)` access-and-append: append to the list of an
existing key, otherwise create the key at the end with a one-note list. -/
def addToGroup (groups : List (Str × List GeneralNote)) (key : Str)
    (n : GeneralNote) : List (Str × List GeneralNote) :=
  match groups with
  | [] => [(key, [n])]
  | (k, ns) :: t =>
    if k = key then (k, ns ++ [n]) :: t else (k, ns) :: addToGroup t key n

/-- The loop body of `group_notes_by_tag`: an untagged note goes to the
em-dash sentinel bucket, a tagged note to the bucket of each of its tags,
lowercased. -/
def insertNote (groups : List (Str × List GeneralNote)) (n : GeneralNote) :
    List (Str × List GeneralNote) :=
  if n.tags = [] then addToGroup groups ['—'] n
  else n.tags.foldl (fun g t => addToGroup g (pyLower t) n) groups

/-- models.py `group_notes_by_tag`: build the groups, then
`dict(sorted(groups.items()))`. -/
def group_notes_by_tag (notes : List GeneralNote) : List (Str × List GeneralNote) :=
  (notes.foldl insertNote []).insertionSort groupLe

/-! ## Concrete data used by counterexamples and witnesses -/

def recJohn : Record :=
  ⟨"John".toList, "Smith".toList, [], [], [], none, []⟩

def bookJohn : AddressBook := [("john smith".toList, recJohn)]

def recPhones : Record :=
  ⟨"Ann".toList, [], [], [], ["1234567890".toList, "1234567890".toList], none, []⟩

def recBday : Record :=
  ⟨"Leo".toList, [], [], [], [], some ⟨2000, 2, 29⟩, []⟩

def bookBday : AddressBook := [("leo".toList, recBday)]

def noteAa : GeneralNote := ⟨['t'], [['A'], ['a']], ⟨2026, 1, 1⟩⟩

/-! ## Claim theorems -/

/-- **C10**: resolving an empty or whitespace-only query returns `none`
for every store and every selection, even though the empty part list
vacuously matches every stored key. -/
theorem resolve_blank_query (q : Str) (h : ∀ c ∈ q, isSpace c = true) :
    (∀ (keys : List Str) (sel : Option Nat), get_record_key q keys sel = none) ∧
    (∀ keys : List Str, keys.filter (matchesParts []) = keys) := by
  have hstrip : pyStrip q = [] := by
    unfold pyStrip
    have h1 : List.dropWhile isSpace q.reverse = [] :=
      List.dropWhile_eq_nil_iff.mpr (fun c hc => h c (List.mem_reverse.mp hc))
    rw [h1]
    rfl
  have hsplit : splitMax1 (pyStrip q) = [] := by rw [hstrip]; rfl
  constructor
  · intro keys sel
    unfold get_record_key
    simp [hsplit]
  · intro keys
    exact List.filter_eq_self.mpr (fun a _ => rfl)

theorem resolve_blank_query_witness :
    get_record_key (" ".toList) ["x".toList] none = none :=
  (resolve_blank_query (" ".toList) (by decide)).1 ["x".toList] none

/-- **C5 counterexample**: `remove_phone` on a record holding the same
value twice removes both occurrences (the claim says the later duplicate
stays), and on an absent value it returns the record unchanged instead of
failing. -/
theorem remove_phone_counterexample :
    recPhones.phones = ["1234567890".toList, "1234567890".toList] ∧
    (recPhones.remove_phone ("1234567890".toList)).phones = [] ∧
    recPhones.remove_phone ("0000000000".toList) = recPhones := by
  refine ⟨rfl, by decide, by decide⟩

/-- **C5 (amended)**: `remove_phone` removes every phone whose value
equals the argument, keeps the rest in order, and never fails: with no
matching phone the record is returned unchanged. -/
theorem remove_phone_removes_all (r : Record) (phone : Str) :
    (∀ p ∈ (r.remove_phone phone).phones, p ≠ phone) ∧
    List.Sublist (r.remove_phone phone).phones r.phones ∧
    (phone ∉ r.phones → r.remove_phone phone = r) := by
  refine ⟨?_, ?_, ?_⟩
  · intro p hp
    have := List.of_mem_filter hp
    simpa using this
  · exact List.filter_sublist _
  · intro hmem
    have : r.phones.filter (fun p => p ≠ phone) = r.phones :=
      List.filter_eq_self.mpr (fun a ha => by
        simp only [decide_eq_true_eq]
        intro hEq
        exact hmem (hEq ▸ ha))
    unfold Record.remove_phone
    rw [this]

theorem remove_phone_removes_all_witness :
    recPhones.remove_phone ("0000000000".toList) = recPhones :=
  (remove_phone_removes_all recPhones ("0000000000".toList)).2.2 (by decide)

/-- **C6**: setting a birthday is one-shot — when a birthday is already
set, `add_birthday` fails (for every new raw value, valid or not) and the
record, in particular its stored birthday, is unchanged. -/
theorem add_birthday_one_shot (today : Date) (r : Record) (b : Date) (raw : Str)
    (h : r.birthday = some b) :
    Record.add_birthday today r raw = none := by
  unfold Record.add_birthday
  rw [h]
  rfl

/-- `get_record_key` with a non-empty part list, written as a single
top-level case split on the candidate list. -/
theorem get_record_key_eq (q : Str) (keys : List Str) (sel : Option Nat)
    (h : splitMax1 (pyStrip q) ≠ []) :
    get_record_key q keys sel =
      (if (candidatesFor q keys).length = 1 then (candidatesFor q keys).head?
       else if 1 < (candidatesFor q keys).length then
         match sel with
         | some i =>
           if 1 ≤ i ∧ i ≤ (candidatesFor q keys).length then
             (candidatesFor q keys).get? (i - 1)
           else none
         | none => none
       else none) := by
  unfold get_record_key candidatesFor
  simp [h]

/-- **C1 counterexample**: against the single stored key "a c b", every
whitespace-separated part of the query "a b c" is a substring of that
key, so by the claim's rule the key is the unique match and resolution
must return it; the code splits with `maxsplit=1` into "a" and "b c",
finds no match, and returns `none`. -/
theorem resolution_split_counterexample :
    ((specSplitWhitespace ("a b c".toList)).all
      (fun p => isSubstr (pyLower p) ("a c b".toList)) = true) ∧
    specSplitWhitespace ("a b c".toList) ≠ [] ∧
    get_record_key ("a b c".toList) ["a c b".toList] none = none := by
  refine ⟨by decide, by decide, by decide⟩

/-- **C1 (amended)**: resolution splits the query into at most two parts
(the first whitespace-delimited word and the remainder); a key matches if
every part's lowercase form is a substring of it.  Zero matches give
not-found for every selection; a unique match is returned for every
selection; with two or more matches the outcome is determined entirely by
the caller-supplied selection over the full candidate list: no selection
gives not-found, an in-range selection `i` returns the `i`-th candidate
(all candidates are reachable), an out-of-range one gives not-found — the
store never picks a candidate on its own. -/
theorem resolve_outcomes (q : Str) (keys : List Str)
    (h : splitMax1 (pyStrip q) ≠ []) :
    (candidatesFor q keys = [] →
      ∀ sel, get_record_key q keys sel = none) ∧
    (∀ k, candidatesFor q keys = [k] →
      ∀ sel, get_record_key q keys sel = some k) ∧
    (2 ≤ (candidatesFor q keys).length →
      get_record_key q keys none = none ∧
      (∀ i k2, get_record_key q keys (some i) = some k2 →
        k2 ∈ candidatesFor q keys) ∧
      (∀ i, 1 ≤ i → i ≤ (candidatesFor q keys).length →
        ∃ k2, (candidatesFor q keys).get? (i - 1) = some k2 ∧
          get_record_key q keys (some i) = some k2) ∧
      (∀ i, ¬(1 ≤ i ∧ i ≤ (candidatesFor q keys).length) →
        get_record_key q keys (some i) = none)) := by
  refine ⟨?_, ?_, ?_⟩
  · intro hms sel
    rw [get_record_key_eq q keys sel h, hms]
    rfl
  · intro k hms sel
    rw [get_record_key_eq q keys sel h, hms]
    rfl
  · intro hlen
    have h1 : ¬((candidatesFor q keys).length = 1) := by omega
    have h2 : 1 < (candidatesFor q keys).length := by omega
    refine ⟨?_, ?_, ?_, ?_⟩
    · rw [get_record_key_eq q keys none h]
      simp [h1, h2]
    · intro i k2 hk2
      rw [get_record_key_eq q keys (some i) h] at hk2
      simp only [if_neg h1, if_pos h2] at hk2
      by_cases hi : 1 ≤ i ∧ i ≤ (candidatesFor q keys).length
      · rw [if_pos hi] at hk2
        exact List.get?_mem hk2
      · rw [if_neg hi] at hk2
        exact absurd hk2 (by simp)
    · intro i hi1 hi2
      have hlt : i - 1 < (candidatesFor q keys).length := by omega
      refine ⟨(candidatesFor q keys).get ⟨i - 1, hlt⟩, List.get?_eq_get hlt, ?_⟩
      rw [get_record_key_eq q keys (some i) h]
      simp only [if_neg h1, if_pos h2, if_pos (And.intro hi1 hi2)]
      exact List.get?_eq_get hlt
    · intro i hi
      rw [get_record_key_eq q keys (some i) h]
      simp [h1, h2, hi]

theorem resolve_outcomes_witness :
    get_record_key ("john smith".toList)
      ["john smith".toList, "john doe".toList] none = some ("john smith".toList) :=
  (resolve_outcomes ("john smith".toList) ["john smith".toList, "john doe".toList]
      (by decide)).2.1 ("john smith".toList) (by decide) none

/-- Records stored under a key other than the deleted one survive
`dictDel`. -/
theorem mem_dictDel_of_ne (book : AddressBook) (k : Str) (p : Str × Record)
    (hp : p ∈ book) (hne : p.1 ≠ k) : p ∈ dictDel book k := by
  induction book with
  | nil => cases hp
  | cons q t ih =>
    obtain ⟨k1, v1⟩ := q
    rcases List.mem_cons.mp hp with hp | hp
    · subst hp
      unfold dictDel
      rw [if_neg hne]
      exact List.mem_cons_self _ _
    · unfold dictDel
      by_cases hk : k1 = k
      · rw [if_pos hk]; exact hp
      · rw [if_neg hk]; exact List.mem_cons_of_mem _ (ih hp)

/-- **C4 counterexample**: with the single stored key "john smith", the
query "smith" substring-resolves uniquely to that key, yet `delete`
canonicalizes the query to the absent key "smith" and fails with
`KeyError` instead of deleting the resolved record. -/
theorem delete_counterexample :
    get_record_key ("smith".toList) (bookJohn.map Prod.fst) none
        = some ("john smith".toList) ∧
    AddressBook.delete bookJohn ("smith".toList) = .error DelError.keyError := by
  refine ⟨by decide, by rfl⟩

/-- **C4 (amended)**: `delete` never substring-resolves: it canonicalizes
the query directly into a key (trim, lowercase, first word plus
remainder) and removes exactly the record stored under that key, failing
with `KeyError` when that exact key is absent; a record stored under any
other key is never removed, so an ambiguous query cannot cause a
deletion (the canonical key is unique by construction). -/
theorem delete_exact_key (book : AddressBook) (q k : Str)
    (h : make_key_from_input q = some k) :
    (k ∈ book.map Prod.fst → AddressBook.delete book q = .ok (dictDel book k)) ∧
    (k ∉ book.map Prod.fst →
      AddressBook.delete book q = .error DelError.keyError) ∧
    (∀ p ∈ book, p.1 ≠ k →
      ∀ b2, AddressBook.delete book q = .ok b2 → p ∈ b2) := by
  refine ⟨?_, ?_, ?_⟩
  · intro hk
    unfold AddressBook.delete
    rw [h]
    simp [hk]
  · intro hk
    unfold AddressBook.delete
    rw [h]
    simp [hk]
  · intro p hp hne b2 hdel
    have hd : AddressBook.delete book q =
        (if k ∈ book.map Prod.fst then .ok (dictDel book k)
         else .error DelError.keyError) := by
      unfold AddressBook.delete
      rw [h]
    rw [hd] at hdel
    by_cases hk : k ∈ book.map Prod.fst
    · rw [if_pos hk] at hdel
      cases hdel
      exact mem_dictDel_of_ne book k p hp hne
    · rw [if_neg hk] at hdel
      cases hdel

theorem delete_exact_key_witness :
    AddressBook.delete bookJohn ("John  SMITH ".toList) = .ok [] :=
  (delete_exact_key bookJohn ("John  SMITH ".toList) ("john smith".toList)
      (by decide)).1 (by decide)

theorem add_birthday_one_shot_witness :
    Record.add_birthday ⟨2026, 1, 1⟩ recBday ("not a date".toList) = none ∧
    Record.add_birthday ⟨2026, 1, 1⟩ recBday ("01.01.1990".toList) = none :=
  ⟨add_birthday_one_shot ⟨2026, 1, 1⟩ recBday ⟨2000, 2, 29⟩ ("not a date".toList) rfl,
   add_birthday_one_shot ⟨2026, 1, 1⟩ recBday ⟨2000, 2, 29⟩ ("01.01.1990".toList) rfl⟩

/-- February 29 is a constructible date exactly in leap years. -/
theorem valid_feb29 (y : Nat) : Date.valid y 2 29 = isLeap y := by
  unfold Date.valid daysInMonth
  cases h : isLeap y <;> simp [h]

/-- **C2**: a stored birthday of February 29 projects, in a target year
without that date, onto February 28 of that year — for the this-year and
the next-year candidate alike — and every produced result entry carries
the resolved occurrence together with `age_turning` equal to the
occurrence year minus the birthday's year. -/
theorem feb29_projection (today b : Date) (hm : b.month = 2) (hd : b.day = 29) :
    (isLeap today.year = false →
      thisYearCand today b.month b.day = ⟨today.year, 2, 28⟩) ∧
    (isLeap (today.year + 1) = false →
      nextYearCand today b.month b.day = ⟨today.year + 1, 2, 28⟩) ∧
    (∀ (r : Record) (k : Str) (daysAhead : Nat) (e : Str × Date × Int),
      r.birthday = some b →
      projectRecord today daysAhead (k, r) = some e →
      e.2.1 = resolveOccurrence today b.month b.day ∧
      e.2.2 = (e.2.1.year : Int) - (b.year : Int)) := by
  refine ⟨?_, ?_, ?_⟩
  · intro hleap
    rw [hm, hd]
    unfold thisYearCand
    rw [valid_feb29, hleap]
    rfl
  · intro hleap
    rw [hm, hd]
    unfold nextYearCand
    rw [valid_feb29, hleap]
    rfl
  · intro r k daysAhead e hb hproj
    unfold projectRecord at hproj
    rw [hb] at hproj
    simp only at hproj
    by_cases hcond : 0 ≤ Date.sub (resolveOccurrence today b.month b.day) today ∧
        Date.sub (resolveOccurrence today b.month b.day) today ≤ (daysAhead : Int)
    · rw [if_pos hcond] at hproj
      cases hproj
      exact ⟨rfl, rfl⟩
    · rw [if_neg hcond] at hproj
      cases hproj

theorem feb29_projection_witness :
    thisYearCand ⟨2026, 1, 15⟩ 2 29 = ⟨2026, 2, 28⟩ ∧
    nextYearCand ⟨2026, 1, 15⟩ 2 29 = ⟨2027, 2, 28⟩ :=
  ⟨(feb29_projection ⟨2026, 1, 15⟩ ⟨2000, 2, 29⟩ rfl rfl).1 (by decide),
   (feb29_projection ⟨2026, 1, 15⟩ ⟨2000, 2, 29⟩ rfl rfl).2.1 (by decide)⟩

/-- A result entry of `projectRecord` keeps the key of the record it was
produced from. -/
theorem projectRecord_fst (today : Date) (n : Nat) (p : Str × Record)
    (e : Str × Date × Int) (h : projectRecord today n p = some e) : e.1 = p.1 := by
  unfold projectRecord at h
  cases hb : p.2.birthday with
  | none => rw [hb] at h; cases h
  | some b =>
    rw [hb] at h
    simp only at h
    by_cases hcond : 0 ≤ Date.sub (resolveOccurrence today b.month b.day) today ∧
        Date.sub (resolveOccurrence today b.month b.day) today ≤ (n : Int)
    · rw [if_pos hcond] at h
      cases h
      rfl
    · rw [if_neg hcond] at h
      cases h

/-- In a store with pairwise distinct keys, a key determines its record. -/
theorem nodup_keys_unique (l : AddressBook) (h : (l.map Prod.fst).Nodup)
    (k : Str) (a b : Record) (ha : (k, a) ∈ l) (hb : (k, b) ∈ l) : a = b := by
  induction l with
  | nil => cases ha
  | cons q t ih =>
    obtain ⟨k1, v1⟩ := q
    rw [List.map_cons, List.nodup_cons] at h
    rcases List.mem_cons.mp ha with ha1 | ha1 <;>
      rcases List.mem_cons.mp hb with hb1 | hb1
    · rw [((Prod.mk.injEq _ _ _ _).mp ha1).2, ((Prod.mk.injEq _ _ _ _).mp hb1).2]
    · exfalso
      apply h.1
      have hk : k1 = k := ((Prod.mk.injEq _ _ _ _).mp ha1).1.symm
      subst hk
      exact List.mem_map.mpr ⟨(k1, b), hb1, rfl⟩
    · exfalso
      apply h.1
      have hk : k1 = k := ((Prod.mk.injEq _ _ _ _).mp hb1).1.symm
      subst hk
      exact List.mem_map.mpr ⟨(k1, a), ha1, rfl⟩
    · exact ih h.2 ha1 hb1

/-- **C3**: a record with a birthday contributes an entry to
`upcoming(days_ahead)` exactly when the day-delta between today and the
resolved occurrence satisfies `0 <= delta <= days_ahead`, both ends
inclusive. -/
theorem upcoming_mem_iff (book : AddressBook) (today : Date) (n : Nat)
    (k : Str) (r : Record) (b : Date)
    (hnd : (book.map Prod.fst).Nodup) (hk : (k, r) ∈ book)
    (hb : r.birthday = some b) :
    (∃ e : Date × Int, (k, e) ∈ AddressBook.upcoming book today n) ↔
      (0 ≤ Date.sub (resolveOccurrence today b.month b.day) today ∧
       Date.sub (resolveOccurrence today b.month b.day) today ≤ (n : Int)) := by
  constructor
  · rintro ⟨e, he⟩
    unfold AddressBook.upcoming at he
    obtain ⟨p, hp, hpe⟩ := List.mem_filterMap.mp he
    obtain ⟨pk, pr⟩ := p
    have hfst : k = pk := projectRecord_fst today n (pk, pr) (k, e) hpe
    subst hfst
    have hpr : pr = r := nodup_keys_unique book hnd k pr r hp hk
    subst hpr
    unfold projectRecord at hpe
    rw [hb] at hpe
    simp only at hpe
    by_cases hcond : 0 ≤ Date.sub (resolveOccurrence today b.month b.day) today ∧
        Date.sub (resolveOccurrence today b.month b.day) today ≤ (n : Int)
    · exact hcond
    · rw [if_neg hcond] at hpe
      cases hpe
  · intro hcond
    refine ⟨(resolveOccurrence today b.month b.day,
        ((resolveOccurrence today b.month b.day).year : Int) - (b.year : Int)), ?_⟩
    unfold AddressBook.upcoming
    refine List.mem_filterMap.mpr ⟨(k, r), hk, ?_⟩
    unfold projectRecord
    rw [hb]
    simp only
    rw [if_pos hcond]

/-- **C7**: `simple_match` returns true exactly when every word tokenized
from the query, lowercased, occurs as a substring of the lowercased note
text or of the lowercased space-joined tag string — AND semantics over
all query words, substring rather than whole-word matching, false as soon
as one word occurs in neither. -/
theorem simple_match_iff (q : Str) (note : GeneralNote) :
    simple_match q note = true ↔
      ∀ w ∈ tokenize q,
        isSubstr (pyLower w) (pyLower note.text) = true ∨
        isSubstr (pyLower w) (pyLower (List.intercalate [' '] note.tags)) = true := by
  unfold simple_match
  rw [List.all_eq_true]
  constructor
  · intro h w hw
    have hmem : pyLower w ∈ ((tokenize q).map pyLower).dedup :=
      List.mem_dedup.mpr (List.mem_map.mpr ⟨w, hw, rfl⟩)
    have := h _ hmem
    simpa using this
  · intro h x hx
    obtain ⟨w, hw, hwl⟩ := List.mem_map.mp (List.mem_dedup.mp hx)
    subst hwl
    simpa using h w hw

theorem simple_match_iff_witness :
    simple_match ("alpha beta".toList)
      ⟨"alpha is here".toList, ["xbetay".toList], ⟨2026, 1, 1⟩⟩ = true :=
  (simple_match_iff ("alpha beta".toList)
      ⟨"alpha is here".toList, ["xbetay".toList], ⟨2026, 1, 1⟩⟩).mpr (by decide)

theorem upcoming_mem_iff_witness :
    0 ≤ Date.sub (resolveOccurrence ⟨2026, 2, 28⟩ 2 29) ⟨2026, 2, 28⟩ ∧
    Date.sub (resolveOccurrence ⟨2026, 2, 28⟩ 2 29) ⟨2026, 2, 28⟩ ≤ ((0 : Nat) : Int) :=
  (upcoming_mem_iff bookBday ⟨2026, 2, 28⟩ 0 ("leo".toList) recBday ⟨2000, 2, 29⟩
      (by decide) (by decide) rfl).mp ⟨(⟨2026, 2, 28⟩, 26), by decide⟩

/-! ## C9: the store key invariant -/

theorem dropWhile_head_false (p : Char → Bool) (l : Str) (c : Char) (t : Str)
    (h : l.dropWhile p = c :: t) : p c = false := by
  induction l with
  | nil => cases h
  | cons a l ih =>
    rw [List.dropWhile_cons] at h
    by_cases hp : p a = true
    · exact ih (by rwa [if_pos hp] at h)
    · rw [if_neg hp] at h
      cases h
      exact Bool.not_eq_true _ |>.mp hp

theorem mem_dropWhile_of_neg (p : Char → Bool) (l : Str) (c : Char)
    (hc : p c = false) (hm : c ∈ l) : c ∈ l.dropWhile p := by
  induction l with
  | nil => cases hm
  | cons a l ih =>
    rw [List.dropWhile_cons]
    by_cases hp : p a = true
    · rw [if_pos hp]
      rcases List.mem_cons.mp hm with h1 | h1
      · subst h1; rw [hc] at hp; cases hp
      · exact ih h1
    · rw [if_neg hp]
      exact hm

theorem pyStrip_ne_nil (s : Str) (c : Char) (hc : c ∈ s)
    (hsp : isSpace c = false) : pyStrip s ≠ [] := by
  unfold pyStrip
  apply List.ne_nil_of_mem (a := c)
  apply mem_dropWhile_of_neg _ _ _ hsp
  apply List.mem_reverse.mpr
  apply mem_dropWhile_of_neg _ _ _ hsp
  exact List.mem_reverse.mpr hc

theorem pyStrip_head_not_space (s : Str) (c : Char) (t : Str)
    (h : pyStrip s = c :: t) : isSpace c = false :=
  dropWhile_head_false isSpace _ c t h

theorem make_key_ne_nil (n s : Str) (c : Char) (t : Str)
    (hn : n = c :: t) (hc : isSpace c = false) : make_key n s ≠ [] := by
  unfold make_key pyLower
  intro hcontra
  rw [List.map_eq_nil_iff] at hcontra
  exact pyStrip_ne_nil _ c (by rw [hn]; exact List.mem_append_left _ (List.mem_cons_self _ _))
    hc hcontra

theorem record_make_spec (name surname address email : Str) (r : Record)
    (h : Record.make name surname address email = some r) :
    r.name = pyStrip name ∧ r.surname = surname ∧ r.name ≠ [] := by
  unfold Record.make at h
  cases hn : nameValidate name with
  | none => rw [hn] at h; cases h
  | some n =>
    cases he : emailValidate email with
    | none => rw [hn, he] at h; cases h
    | some e =>
      rw [hn, he] at h
      cases h
      unfold nameValidate at hn
      by_cases hs : pyStrip name = []
      · rw [if_pos hs] at hn; cases hn
      · rw [if_neg hs] at hn
        cases hn
        exact ⟨rfl, rfl, hs⟩

theorem dropWhile_fix (p : Char → Bool) (l : Str)
    (h : ∀ c t2, l = c :: t2 → p c = false) : l.dropWhile p = l := by
  cases l with
  | nil => rfl
  | cons c t2 =>
    have hc := h c t2 rfl
    rw [List.dropWhile_cons, if_neg (by simp [hc])]

/-- Stripping is idempotent: a stripped string has no leading or trailing
whitespace left to remove. -/
theorem pyStrip_idem (s : Str) : pyStrip (pyStrip s) = pyStrip s := by
  unfold pyStrip
  set w := (List.dropWhile isSpace s.reverse).reverse with hw
  set u := List.dropWhile isSpace w with hu
  have h1 : List.dropWhile isSpace u.reverse = u.reverse := by
    apply dropWhile_fix
    intro c t2 hc
    obtain ⟨rest, hrest⟩ :=
      List.reverse_prefix.mpr (List.dropWhile_suffix (l := w) isSpace)
    have hwrev : w.reverse = List.dropWhile isSpace s.reverse := by
      rw [hw, List.reverse_reverse]
    rw [← hu, hc] at hrest
    apply dropWhile_head_false isSpace s.reverse c (t2 ++ rest)
    rw [← hwrev, ← hrest]
    simp
  rw [h1, List.reverse_reverse]
  apply dropWhile_fix
  intro c t2 hc
  exact dropWhile_head_false isSpace w c t2 (hu ▸ hc)

theorem mem_hDictSet (hbook : HBook) (k : Str) (v : Record)
    (p : Str × Record × Record) (hp : p ∈ hDictSet hbook k v) :
    p = (k, v, v) ∨ p ∈ hbook := by
  induction hbook with
  | nil =>
    rcases List.mem_cons.mp hp with h1 | h1
    · exact Or.inl h1
    · cases h1
  | cons e t ih =>
    obtain ⟨k1, e1⟩ := e
    unfold hDictSet at hp
    by_cases hk : k1 = k
    · rw [if_pos hk] at hp
      rcases List.mem_cons.mp hp with h1 | h1
      · exact Or.inl h1
      · exact Or.inr (List.mem_cons_of_mem _ h1)
    · rw [if_neg hk] at hp
      rcases List.mem_cons.mp hp with h1 | h1
      · exact Or.inr (h1 ▸ List.mem_cons_self _ _)
      · rcases ih h1 with h2 | h2
        · exact Or.inl h2
        · exact Or.inr (List.mem_cons_of_mem _ h2)

theorem mem_hDictDel (hbook : HBook) (k : Str) (p : Str × Record × Record)
    (hp : p ∈ hDictDel hbook k) : p ∈ hbook := by
  induction hbook with
  | nil => cases hp
  | cons e t ih =>
    obtain ⟨k1, e1⟩ := e
    unfold hDictDel at hp
    by_cases hk : k1 = k
    · rw [if_pos hk] at hp
      exact List.mem_cons_of_mem _ hp
    · rw [if_neg hk] at hp
      rcases List.mem_cons.mp hp with h1 | h1
      · exact h1 ▸ List.mem_cons_self _ _
      · exact List.mem_cons_of_mem _ (ih h1)

theorem mem_hMutateAt (hbook : HBook) (k : Str) (f : Record → Option Record)
    (p : Str × Record × Record) (hp : p ∈ hMutateAt hbook k f) :
    ∃ e ∈ hbook, p.1 = e.1 ∧ p.2.2 = e.2.2 := by
  unfold hMutateAt at hp
  obtain ⟨e, he, heq⟩ := List.mem_map.mp hp
  refine ⟨e, he, ?_⟩
  by_cases hk : e.1 = k
  · rw [if_pos hk] at heq
    cases hf : f e.2.1 with
    | none => rw [hf] at heq; exact heq ▸ ⟨rfl, rfl⟩
    | some r2 =>
      rw [hf] at heq
      simp only at heq
      exact heq ▸ ⟨rfl, rfl⟩
  · rw [if_neg hk] at heq
    exact heq ▸ ⟨rfl, rfl⟩

theorem mem_hUpdateAt (hbook : HBook) (k : Str) (f : Record → Record)
    (p : Str × Record × Record) (hp : p ∈ hUpdateAt hbook k f) :
    ∃ e ∈ hbook, p.1 = e.1 ∧ p.2.2 = e.2.2 := by
  unfold hUpdateAt at hp
  obtain ⟨e, he, heq⟩ := List.mem_map.mp hp
  refine ⟨e, he, ?_⟩
  by_cases hk : e.1 = k
  · rw [if_pos hk] at heq
    exact heq ▸ ⟨rfl, rfl⟩
  · rw [if_neg hk] at heq
    exact heq ▸ ⟨rfl, rfl⟩

theorem mem_hApplyMutation (hbook : HBook) (q : Str) (sel : Option Nat)
    (f : Record → Option Record) (p : Str × Record × Record)
    (hp : p ∈ hApplyMutation hbook q sel f) :
    ∃ e ∈ hbook, p.1 = e.1 ∧ p.2.2 = e.2.2 := by
  unfold hApplyMutation at hp
  cases hk : get_record_key q ((erase hbook).map Prod.fst) sel with
  | none =>
    rw [hk] at hp
    exact ⟨p, hp, rfl, rfl⟩
  | some key =>
    rw [hk] at hp
    exact mem_hMutateAt hbook key f p hp

theorem erase_hDictSet (hbook : HBook) (k : Str) (v : Record) :
    erase (hDictSet hbook k v) = dictSet (erase hbook) k v := by
  induction hbook with
  | nil => rfl
  | cons e t ih =>
    obtain ⟨k1, r1, s1⟩ := e
    by_cases hk : k1 = k
    · simp [hDictSet, dictSet, erase, hk]
    · simp only [hDictSet, dictSet, erase, List.map_cons, if_neg hk]
      simp only [erase] at ih
      rw [ih]

theorem erase_hDictDel (hbook : HBook) (k : Str) :
    erase (hDictDel hbook k) = dictDel (erase hbook) k := by
  induction hbook with
  | nil => rfl
  | cons e t ih =>
    obtain ⟨k1, r1, s1⟩ := e
    by_cases hk : k1 = k
    · simp [hDictDel, dictDel, erase, hk]
    · simp only [hDictDel, dictDel, erase, List.map_cons, if_neg hk]
      simp only [erase] at ih
      rw [ih]

theorem erase_hMutateAt (hbook : HBook) (k : Str) (f : Record → Option Record) :
    erase (hMutateAt hbook k f) = mutateAt (erase hbook) k f := by
  induction hbook with
  | nil => rfl
  | cons e t ih =>
    obtain ⟨k1, r1, s1⟩ := e
    simp only [hMutateAt, mutateAt, erase, List.map_cons] at ih ⊢
    rw [List.cons_eq_cons]
    constructor
    · by_cases hk : k1 = k
      · simp only [if_pos hk]
        cases hf : f r1 <;> simp
      · simp [hk]
    · exact ih

theorem erase_hUpdateAt (hbook : HBook) (k : Str) (f : Record → Record) :
    erase (hUpdateAt hbook k f) = updateAt (erase hbook) k f := by
  induction hbook with
  | nil => rfl
  | cons e t ih =>
    obtain ⟨k1, r1, s1⟩ := e
    simp only [hUpdateAt, updateAt, erase, List.map_cons] at ih ⊢
    rw [List.cons_eq_cons]
    constructor
    · by_cases hk : k1 = k
      · simp [hk]
      · simp [hk]
    · exact ih

theorem erase_hApplyMutation (hbook : HBook) (q : Str) (sel : Option Nat)
    (f : Record → Option Record) :
    erase (hApplyMutation hbook q sel f) = applyMutation (erase hbook) q sel f := by
  unfold hApplyMutation applyMutation
  cases hk : get_record_key q ((erase hbook).map Prod.fst) sel with
  | none => rfl
  | some key => exact erase_hMutateAt hbook key f

theorem erase_hApplyOp (today : Date) (hbook : HBook) (op : Op) :
    erase (hApplyOp today hbook op) = applyOp today (erase hbook) op := by
  cases op with
  | add name surname address email =>
    simp only [hApplyOp, applyOp]
    cases hmk : Record.make name surname address email with
    | none => rfl
    | some r => exact erase_hDictSet hbook _ r
  | addContact name surname phone email address =>
    simp only [hApplyOp, applyOp]
    by_cases hmem :
        make_key (pyStrip name) (pyStrip surname) ∈ (erase hbook).map Prod.fst
    · rw [if_pos hmem, if_pos hmem]
      exact erase_hUpdateAt hbook _ _
    · rw [if_neg hmem, if_neg hmem]
      cases hmk : Record.make (pyStrip name) (pyStrip surname)
          (pyStrip address) (pyStrip email) with
      | none => rfl
      | some r =>
        simp only
        by_cases hph : pyStrip phone ≠ []
        · rw [if_pos hph, if_pos hph]
          cases hv : phoneValidate (pyStrip phone) with
          | none => rfl
          | some p => exact erase_hDictSet hbook _ _
        · rw [if_neg hph, if_neg hph]
          exact erase_hDictSet hbook _ r
  | del q =>
    simp only [hApplyOp, applyOp]
    cases hmk : make_key_from_input q with
    | none =>
      have hd : AddressBook.delete (erase hbook) q = .error DelError.typeError := by
        unfold AddressBook.delete
        rw [hmk]
      rw [hd]
    | some k =>
      simp only
      by_cases hmem : k ∈ (erase hbook).map Prod.fst
      · have hd : AddressBook.delete (erase hbook) q = .ok (dictDel (erase hbook) k) := by
          unfold AddressBook.delete
          rw [hmk]
          simp [hmem]
        rw [hd, if_pos hmem]
        exact erase_hDictDel hbook k
      · have hd : AddressBook.delete (erase hbook) q = .error DelError.keyError := by
          unfold AddressBook.delete
          rw [hmk]
          simp [hmem]
        rw [hd, if_neg hmem]
  | addPhone q sel phone => exact erase_hApplyMutation hbook q sel _
  | removePhone q sel phone => exact erase_hApplyMutation hbook q sel _
  | editPhone q sel idx new => exact erase_hApplyMutation hbook q sel _
  | addBirthday q sel raw => exact erase_hApplyMutation hbook q sel _
  | addContactNote q sel note => exact erase_hApplyMutation hbook q sel _
  | updateEmail q sel email => exact erase_hApplyMutation hbook q sel _
  | updateAddress q sel addr => exact erase_hApplyMutation hbook q sel _

theorem erase_hApplyOps (today : Date) (ops : List Op) :
    ∀ hbook : HBook,
      erase (hApplyOps today ops hbook) = applyOps today ops (erase hbook) := by
  induction ops with
  | nil => intro hbook; rfl
  | cons op t ih =>
    intro hbook
    have step : hApplyOps today (op :: t) hbook =
        hApplyOps today t (hApplyOp today hbook op) := rfl
    rw [step, ih (hApplyOp today hbook op), erase_hApplyOp]
    rfl

theorem hApplyMutation_inv (hbook : HBook) (q : Str) (sel : Option Nat)
    (f : Record → Option Record)
    (h : ∀ e ∈ hbook, e.1 ≠ [] ∧ e.1 = make_key e.2.2.name e.2.2.surname) :
    ∀ e ∈ hApplyMutation hbook q sel f,
      e.1 ≠ [] ∧ e.1 = make_key e.2.2.name e.2.2.surname := by
  intro e he
  obtain ⟨e0, he0, hfst, hsnap⟩ := mem_hApplyMutation hbook q sel f e he
  rw [hfst, hsnap]
  exact h e0 he0

theorem hApplyOp_inv (today : Date) (hbook : HBook) (op : Op)
    (h : ∀ e ∈ hbook, e.1 ≠ [] ∧ e.1 = make_key e.2.2.name e.2.2.surname) :
    ∀ e ∈ hApplyOp today hbook op,
      e.1 ≠ [] ∧ e.1 = make_key e.2.2.name e.2.2.surname := by
  cases op with
  | add name surname address email =>
    simp only [hApplyOp]
    cases hmk : Record.make name surname address email with
    | none => exact h
    | some r =>
      intro e he
      rcases mem_hDictSet _ _ _ _ he with h1 | h1
      · subst h1
        obtain ⟨hname, _hsur, hne⟩ := record_make_spec _ _ _ _ _ hmk
        refine ⟨?_, rfl⟩
        obtain ⟨c, t, hrn⟩ := List.exists_cons_of_ne_nil hne
        exact make_key_ne_nil r.name r.surname c t hrn
          (pyStrip_head_not_space name c t (by rw [← hname]; exact hrn))
      · exact h e h1
  | addContact name surname phone email address =>
    simp only [hApplyOp]
    by_cases hmem :
        make_key (pyStrip name) (pyStrip surname) ∈ (erase hbook).map Prod.fst
    · rw [if_pos hmem]
      intro e he
      obtain ⟨e0, he0, hfst, hsnap⟩ := mem_hUpdateAt _ _ _ e he
      rw [hfst, hsnap]
      exact h e0 he0
    · rw [if_neg hmem]
      cases hmk : Record.make (pyStrip name) (pyStrip surname)
          (pyStrip address) (pyStrip email) with
      | none => exact h
      | some r =>
        obtain ⟨hname, hsur, hne⟩ := record_make_spec _ _ _ _ _ hmk
        have hname2 : r.name = pyStrip name := by
          rw [hname, pyStrip_idem]
        have hkey : make_key (pyStrip name) (pyStrip surname)
            = make_key r.name r.surname := by
          rw [hname2, hsur]
        have hkne : make_key (pyStrip name) (pyStrip surname) ≠ [] := by
          obtain ⟨c, t, hrn⟩ := List.exists_cons_of_ne_nil hne
          rw [hname2] at hrn
          exact make_key_ne_nil (pyStrip name) (pyStrip surname) c t hrn
            (pyStrip_head_not_space name c t hrn)
        have hstep : ∀ (v : Record), v.name = r.name → v.surname = r.surname →
            ∀ e ∈ hDictSet hbook (make_key (pyStrip name) (pyStrip surname)) v,
              e.1 ≠ [] ∧ e.1 = make_key e.2.2.name e.2.2.surname := by
          intro v hvn hvs e he
          rcases mem_hDictSet _ _ _ _ he with h1 | h1
          · subst h1
            exact ⟨hkne, by rw [hkey, hvn, hvs]⟩
          · exact h e h1
        simp only
        by_cases hph : pyStrip phone ≠ []
        · rw [if_pos hph]
          cases hv : phoneValidate (pyStrip phone) with
          | none => exact h
          | some p => exact hstep { r with phones := r.phones ++ [p] } rfl rfl
        · rw [if_neg hph]
          exact hstep r rfl rfl
  | del q =>
    simp only [hApplyOp]
    cases hmk : make_key_from_input q with
    | none => exact h
    | some k =>
      simp only
      by_cases hmem : k ∈ (erase hbook).map Prod.fst
      · rw [if_pos hmem]
        intro e he
        exact h e (mem_hDictDel hbook k e he)
      · rw [if_neg hmem]
        exact h
  | addPhone q sel phone => exact hApplyMutation_inv hbook q sel _ h
  | removePhone q sel phone => exact hApplyMutation_inv hbook q sel _ h
  | editPhone q sel idx new => exact hApplyMutation_inv hbook q sel _ h
  | addBirthday q sel raw => exact hApplyMutation_inv hbook q sel _ h
  | addContactNote q sel note => exact hApplyMutation_inv hbook q sel _ h
  | updateEmail q sel email => exact hApplyMutation_inv hbook q sel _ h
  | updateAddress q sel addr => exact hApplyMutation_inv hbook q sel _ h

/-- **C9**: after any sequence of operations starting from the empty
store — including the handlers.py add/update branch, which rewrites
surname, phones, email and address of an already-stored record in place
without re-keying — every stored key is non-empty and equals the
canonical derived key of its record's name and surname as of the last
write that inserted the key: the ghost snapshot carried by the
instrumented semantics `hApplyOps`, set exactly at `data[key] = rec`
writes and left untouched by every in-place field mutation (keys are not
auto-updated when fields change afterwards). -/
theorem store_key_invariant (today : Date) (ops : List Op) (k : Str) (r : Record)
    (h : (k, r) ∈ applyOps today ops []) :
    k ≠ [] ∧ ∃ r0 : Record, (k, r, r0) ∈ hApplyOps today ops [] ∧
      k = make_key r0.name r0.surname := by
  have hinv : ∀ e ∈ hApplyOps today ops [],
      e.1 ≠ [] ∧ e.1 = make_key e.2.2.name e.2.2.surname := by
    have main : ∀ (l : List Op) (hb : HBook),
        (∀ e ∈ hb, e.1 ≠ [] ∧ e.1 = make_key e.2.2.name e.2.2.surname) →
        ∀ e ∈ hApplyOps today l hb,
          e.1 ≠ [] ∧ e.1 = make_key e.2.2.name e.2.2.surname := by
      intro l
      induction l with
      | nil => intro hb hbh; exact hbh
      | cons op t ih =>
        intro hb hbh
        exact ih (hApplyOp today hb op) (hApplyOp_inv today hb op hbh)
    exact main ops [] (by intro e he; cases he)
  have herase : erase (hApplyOps today ops []) = applyOps today ops [] :=
    erase_hApplyOps today ops []
  rw [← herase] at h
  obtain ⟨e, he, heq⟩ := List.mem_map.mp h
  obtain ⟨ek, er, es⟩ := e
  obtain ⟨h1, h2⟩ := Prod.mk.injEq .. ▸ heq
  subst h1
  subst h2
  obtain ⟨hne, hkey⟩ := hinv (ek, er, es) he
  exact ⟨hne, es, he, hkey⟩

/-! ## C8: grouping notes by tag -/

theorem addToGroup_self (g : List (Str × List GeneralNote)) (key : Str)
    (n : GeneralNote) : ∃ ns, (key, ns) ∈ addToGroup g key n ∧ n ∈ ns := by
  induction g with
  | nil => exact ⟨[n], List.mem_cons_self _ _, List.mem_singleton.mpr rfl⟩
  | cons q t ih =>
    obtain ⟨k1, ns1⟩ := q
    unfold addToGroup
    by_cases hk : k1 = key
    · subst hk
      rw [if_pos rfl]
      exact ⟨ns1 ++ [n], List.mem_cons_self _ _,
        List.mem_append_right _ (List.mem_singleton.mpr rfl)⟩
    · rw [if_neg hk]
      obtain ⟨ns, h1, h2⟩ := ih
      exact ⟨ns, List.mem_cons_of_mem _ h1, h2⟩

theorem addToGroup_preserve (g : List (Str × List GeneralNote)) (key : Str)
    (n : GeneralNote) (k : Str) (ns : List GeneralNote) (m : GeneralNote)
    (h : (k, ns) ∈ g) (hm : m ∈ ns) :
    ∃ ns2, (k, ns2) ∈ addToGroup g key n ∧ m ∈ ns2 := by
  induction g with
  | nil => cases h
  | cons q t ih =>
    obtain ⟨k1, ns1⟩ := q
    unfold addToGroup
    by_cases hk : k1 = key
    · rw [if_pos hk]
      rcases List.mem_cons.mp h with h1 | h1
      · obtain ⟨hk2, hns⟩ := Prod.mk.injEq .. ▸ h1
        subst hk2
        subst hns
        exact ⟨ns ++ [n], List.mem_cons_self _ _, List.mem_append_left _ hm⟩
      · exact ⟨ns, List.mem_cons_of_mem _ h1, hm⟩
    · rw [if_neg hk]
      rcases List.mem_cons.mp h with h1 | h1
      · exact ⟨ns, h1 ▸ List.mem_cons_self _ _, hm⟩
      · obtain ⟨ns2, h2, h3⟩ := ih h1
        exact ⟨ns2, List.mem_cons_of_mem _ h2, h3⟩

theorem addToGroup_inv (g : List (Str × List GeneralNote)) (key : Str)
    (n : GeneralNote) (k : Str) (ns : List GeneralNote) (m : GeneralNote)
    (h : (k, ns) ∈ addToGroup g key n) (hm : m ∈ ns) :
    (∃ ns0, (k, ns0) ∈ g ∧ m ∈ ns0) ∨ (k = key ∧ m = n) := by
  induction g with
  | nil =>
    rcases List.mem_cons.mp h with h1 | h1
    · obtain ⟨hk, hns⟩ := Prod.mk.injEq .. ▸ h1
      subst hk
      subst hns
      exact Or.inr ⟨rfl, List.mem_singleton.mp hm⟩
    · cases h1
  | cons q t ih =>
    obtain ⟨k1, ns1⟩ := q
    unfold addToGroup at h
    by_cases hk : k1 = key
    · rw [if_pos hk] at h
      rcases List.mem_cons.mp h with h1 | h1
      · obtain ⟨hk2, hns⟩ := Prod.mk.injEq .. ▸ h1
        subst hk2
        subst hns
        rcases List.mem_append.mp hm with h2 | h2
        · exact Or.inl ⟨ns1, List.mem_cons_self _ _, h2⟩
        · exact Or.inr ⟨hk, List.mem_singleton.mp h2⟩
      · exact Or.inl ⟨ns, List.mem_cons_of_mem _ h1, hm⟩
    · rw [if_neg hk] at h
      rcases List.mem_cons.mp h with h1 | h1
      · exact Or.inl ⟨ns, h1 ▸ List.mem_cons_self _ _, hm⟩
      · rcases ih h1 with ⟨ns0, h2, h3⟩ | h2
        · exact Or.inl ⟨ns0, List.mem_cons_of_mem _ h2, h3⟩
        · exact Or.inr h2

theorem tagsFold_preserve (n : GeneralNote) (tags : List Str)
    (g : List (Str × List GeneralNote)) (k : Str) (ns : List GeneralNote)
    (m : GeneralNote) (h : (k, ns) ∈ g) (hm : m ∈ ns) :
    ∃ ns2, (k, ns2) ∈ tags.foldl (fun g2 t => addToGroup g2 (pyLower t) n) g ∧
      m ∈ ns2 := by
  induction tags generalizing g ns with
  | nil => exact ⟨ns, h, hm⟩
  | cons t ts ih =>
    obtain ⟨ns2, h2, h3⟩ := addToGroup_preserve g (pyLower t) n k ns m h hm
    exact ih (addToGroup g (pyLower t) n) ns2 h2 h3

theorem tagsFold_self (n : GeneralNote) (tags : List Str)
    (g : List (Str × List GeneralNote)) (t0 : Str) (ht : t0 ∈ tags) :
    ∃ ns, (pyLower t0, ns) ∈
        tags.foldl (fun g2 t => addToGroup g2 (pyLower t) n) g ∧ n ∈ ns := by
  induction tags generalizing g with
  | nil => cases ht
  | cons t ts ih =>
    rcases List.mem_cons.mp ht with h1 | h1
    · subst h1
      obtain ⟨ns, h2, h3⟩ := addToGroup_self g (pyLower t0) n
      exact tagsFold_preserve n ts _ _ ns n h2 h3
    · exact ih (addToGroup g (pyLower t) n) h1

theorem tagsFold_inv (n : GeneralNote) (tags : List Str)
    (g : List (Str × List GeneralNote)) (k : Str) (ns : List GeneralNote)
    (m : GeneralNote)
    (h : (k, ns) ∈ tags.foldl (fun g2 t => addToGroup g2 (pyLower t) n) g)
    (hm : m ∈ ns) :
    (∃ ns0, (k, ns0) ∈ g ∧ m ∈ ns0) ∨
      (m = n ∧ ∃ t ∈ tags, pyLower t = k) := by
  induction tags generalizing g with
  | nil => exact Or.inl ⟨ns, h, hm⟩
  | cons t ts ih =>
    rcases ih (addToGroup g (pyLower t) n) h with ⟨ns0, h2, h3⟩ | ⟨h2, t2, h3, h4⟩
    · rcases addToGroup_inv g (pyLower t) n k ns0 m h2 h3 with ⟨ns1, h4, h5⟩ | ⟨h4, h5⟩
      · exact Or.inl ⟨ns1, h4, h5⟩
      · exact Or.inr ⟨h5, t, List.mem_cons_self _ _, h4.symm⟩
    · exact Or.inr ⟨h2, t2, List.mem_cons_of_mem _ h3, h4⟩

theorem insert_preserve (g : List (Str × List GeneralNote)) (nt : GeneralNote)
    (k : Str) (ns : List GeneralNote) (m : GeneralNote)
    (h : (k, ns) ∈ g) (hm : m ∈ ns) :
    ∃ ns2, (k, ns2) ∈ insertNote g nt ∧ m ∈ ns2 := by
  unfold insertNote
  by_cases htags : nt.tags = []
  · rw [if_pos htags]
    exact addToGroup_preserve g ['—'] nt k ns m h hm
  · rw [if_neg htags]
    exact tagsFold_preserve nt nt.tags g k ns m h hm

theorem insert_inv (g : List (Str × List GeneralNote)) (nt : GeneralNote)
    (k : Str) (ns : List GeneralNote) (m : GeneralNote)
    (h : (k, ns) ∈ insertNote g nt) (hm : m ∈ ns) :
    (∃ ns0, (k, ns0) ∈ g ∧ m ∈ ns0) ∨
      (m = nt ∧ ((nt.tags = [] ∧ k = ['—']) ∨ ∃ t ∈ nt.tags, pyLower t = k)) := by
  unfold insertNote at h
  by_cases htags : nt.tags = []
  · rw [if_pos htags] at h
    rcases addToGroup_inv g ['—'] nt k ns m h hm with h1 | ⟨h1, h2⟩
    · exact Or.inl h1
    · exact Or.inr ⟨h2, Or.inl ⟨htags, h1⟩⟩
  · rw [if_neg htags] at h
    rcases tagsFold_inv nt nt.tags g k ns m h hm with h1 | ⟨h1, h2⟩
    · exact Or.inl h1
    · exact Or.inr ⟨h1, Or.inr h2⟩

theorem notesFold_preserve (l : List GeneralNote)
    (g : List (Str × List GeneralNote)) (k : Str) (ns : List GeneralNote)
    (m : GeneralNote) (h : (k, ns) ∈ g) (hm : m ∈ ns) :
    ∃ ns2, (k, ns2) ∈ l.foldl insertNote g ∧ m ∈ ns2 := by
  induction l generalizing g ns with
  | nil => exact ⟨ns, h, hm⟩
  | cons nt l ih =>
    obtain ⟨ns2, h2, h3⟩ := insert_preserve g nt k ns m h hm
    exact ih (insertNote g nt) ns2 h2 h3

theorem notesFold_self (l : List GeneralNote)
    (g : List (Str × List GeneralNote)) (nt : GeneralNote) (hnt : nt ∈ l) :
    (nt.tags = [] → ∃ ns, (['—'], ns) ∈ l.foldl insertNote g ∧ nt ∈ ns) ∧
    (∀ t ∈ nt.tags, ∃ ns, (pyLower t, ns) ∈ l.foldl insertNote g ∧ nt ∈ ns) := by
  induction l generalizing g with
  | nil => cases hnt
  | cons n0 l ih =>
    rcases List.mem_cons.mp hnt with h1 | h1
    · subst h1
      constructor
      · intro htags
        have hbase : ∃ ns, (['—'], ns) ∈ insertNote g nt ∧ nt ∈ ns := by
          unfold insertNote
          rw [if_pos htags]
          exact addToGroup_self g ['—'] nt
        obtain ⟨ns, h2, h3⟩ := hbase
        exact notesFold_preserve l _ _ ns nt h2 h3
      · intro t ht
        have htags : ¬ nt.tags = [] := by
          intro hcontra
          rw [hcontra] at ht
          cases ht
        have hbase : ∃ ns, (pyLower t, ns) ∈ insertNote g nt ∧ nt ∈ ns := by
          unfold insertNote
          rw [if_neg htags]
          exact tagsFold_self nt nt.tags g t ht
        obtain ⟨ns, h2, h3⟩ := hbase
        exact notesFold_preserve l _ _ ns nt h2 h3
    · exact ih (insertNote g n0) h1

theorem notesFold_inv (l : List GeneralNote)
    (g : List (Str × List GeneralNote)) (k : Str) (ns : List GeneralNote)
    (m : GeneralNote) (h : (k, ns) ∈ l.foldl insertNote g) (hm : m ∈ ns) :
    (∃ ns0, (k, ns0) ∈ g ∧ m ∈ ns0) ∨
      (m ∈ l ∧ ((m.tags = [] ∧ k = ['—']) ∨ ∃ t ∈ m.tags, pyLower t = k)) := by
  induction l generalizing g ns with
  | nil => exact Or.inl ⟨ns, h, hm⟩
  | cons n0 l ih =>
    rcases ih (insertNote g n0) ns h hm with ⟨ns0, h2, h3⟩ | ⟨h2, h3⟩
    · rcases insert_inv g n0 k ns0 m h2 h3 with h4 | ⟨h4, h5⟩
      · exact Or.inl h4
      · subst h4
        exact Or.inr ⟨List.mem_cons_self _ _, h5⟩
    · exact Or.inr ⟨List.mem_cons_of_mem _ h2, h3⟩

/-- **C8 counterexample**: a note carrying the two tags "A" and "a" ends
up in a single group (keyed by the lowercased tag "a", which contains it
twice), not in two groups as the claim requires for a note with two
tags. -/
theorem group_by_tag_counterexample :
    noteAa.tags.length = 2 ∧
    (group_notes_by_tag [noteAa]).length = 1 ∧
    List.countP (fun p => decide (noteAa ∈ p.2)) (group_notes_by_tag [noteAa]) = 1 := by
  refine ⟨rfl, by decide, by decide⟩

/-- **C8 (amended)**: `group_by_tag` places a note with no tags only in
the sentinel em-dash bucket; a tagged note is placed in the bucket of each
of its tags' lowercased names — so it reaches one group per distinct
lowercased tag, and tags that coincide after lowercasing collapse into
the same group; and the groups come back sorted by tag name. -/
theorem group_by_tag_spec (notes : List GeneralNote) :
    List.Sorted groupLe (group_notes_by_tag notes) ∧
    (∀ n ∈ notes, n.tags = [] →
      ∃ ns, (['—'], ns) ∈ group_notes_by_tag notes ∧ n ∈ ns) ∧
    (∀ n ∈ notes, ∀ t ∈ n.tags,
      ∃ ns, (pyLower t, ns) ∈ group_notes_by_tag notes ∧ n ∈ ns) ∧
    (∀ k ns, (k, ns) ∈ group_notes_by_tag notes → ∀ m ∈ ns,
      m ∈ notes ∧ ((m.tags = [] ∧ k = ['—']) ∨ ∃ t ∈ m.tags, pyLower t = k)) := by
  refine ⟨List.sorted_insertionSort groupLe _, ?_, ?_, ?_⟩
  · intro n hn htags
    obtain ⟨ns, h1, h2⟩ := (notesFold_self notes [] n hn).1 htags
    exact ⟨ns, (List.mem_insertionSort groupLe).mpr h1, h2⟩
  · intro n hn t ht
    obtain ⟨ns, h1, h2⟩ := (notesFold_self notes [] n hn).2 t ht
    exact ⟨ns, (List.mem_insertionSort groupLe).mpr h1, h2⟩
  · intro k ns hk m hm
    have h1 : (k, ns) ∈ notes.foldl insertNote [] :=
      (List.mem_insertionSort groupLe).mp hk
    rcases notesFold_inv notes [] k ns m h1 hm with ⟨ns0, h2, _⟩ | ⟨h2, h3⟩
    · cases h2
    · exact ⟨h2, h3⟩

theorem group_by_tag_spec_witness :
    List.Sorted groupLe (group_notes_by_tag
      [⟨"hello".toList, ["work".toList, "Urgent".toList], ⟨2026, 1, 1⟩⟩]) :=
  (group_by_tag_spec [⟨"hello".toList, ["work".toList, "Urgent".toList],
      ⟨2026, 1, 1⟩⟩]).1

theorem store_key_invariant_witness :
    ("john smith".toList : Str) ≠ [] :=
  (store_key_invariant ⟨2026, 1, 1⟩
    [Op.addContact ("John Smith".toList) [] [] [] [],
     Op.addContact ("John".toList) ("Smith".toList) [] [] []]
    ("john smith".toList)
    ⟨"John Smith".toList, "Smith".toList, [], [], [], none, []⟩
    (by decide)).1
